import Mathlib

/-!
# Pratt-parser demo: shallow embedding and verification

Shallow embedding of `src/main.py`: a scanner over single characters, a
Pratt (precedence-climbing) parser that emits stack bytecode, and a stack
interpreter.  Python's mutable parser object becomes an explicit
`ParserState` threaded through the functions; Python exceptions become
explicit error values carrying the state at the point of failure (the
parser object, with the bytecode emitted so far, remains observable after
a Python exception propagates).  Recursion is bounded by an explicit fuel
parameter; the entry point supplies fuel that dominates the recursion
depth, which is bounded by the token count.
-/

deriving instance DecidableEq for Except

namespace PrattDemo

/-- `TokenKind` from the source: the enum ordinal doubles as the binding
precedence (`PLUS = 0`, `MULTIPLY = 1`, `NUMBER = 2`). -/
inductive TokenKind where
  | PLUS
  | MULTIPLY
  | NUMBER
deriving DecidableEq, Repr

/-- The enum ordinal (`self.value` in Python). -/
def TokenKind.value : TokenKind → Nat
  | .PLUS => 0
  | .MULTIPLY => 1
  | .NUMBER => 2

/-- The enum member with the given ordinal (`_member_names_[value]` in
Python); only ever consulted for ordinals below `NUMBER.value`. -/
def TokenKind.ofValue : Nat → TokenKind
  | 0 => .PLUS
  | 1 => .MULTIPLY
  | _ => .NUMBER

/-- `TokenKind.increase` from the source: take the next ordinal, saturating
at `NUMBER`. -/
def TokenKind.increase (k : TokenKind) : TokenKind :=
  let value := k.value + 1
  if TokenKind.NUMBER.value ≤ value then TokenKind.NUMBER
  else TokenKind.ofValue value

/-- `Token` from the source.  The scanner only ever builds one-character
lexemes, so the lexeme is modelled as a `Char`. -/
structure Token where
  lexeme : Char
  kind : TokenKind
deriving DecidableEq, Repr

/-- The scanner's failure (`raise ValueError(f"Unresolved token {char}")`),
carrying the offending character. -/
inductive ScanError where
  | unresolvedToken (c : Char)
deriving DecidableEq, Repr

/-- `simple_scan` from the source: skip whitespace, classify digits, `+`
and `*`, fail on anything else. -/
def simple_scan : List Char → Except ScanError (List Token)
  | [] => .ok []
  | c :: rest =>
    if c.isWhitespace then simple_scan rest
    else if c.isDigit then
      match simple_scan rest with
      | .ok ts => .ok (Token.mk c .NUMBER :: ts)
      | .error e => .error e
    else if c = '+' then
      match simple_scan rest with
      | .ok ts => .ok (Token.mk c .PLUS :: ts)
      | .error e => .error e
    else if c = '*' then
      match simple_scan rest with
      | .ok ts => .ok (Token.mk c .MULTIPLY :: ts)
      | .error e => .error e
    else .error (.unresolvedToken c)

/-- The closed bytecode instruction set (`ConstantInstruction`,
`AddInstruction`, `MultiplyInstruction`). -/
inductive Instr where
  | const (value : Int)
  | add
  | mul
deriving DecidableEq, Repr

/-- Errors of the parsing phase.  `noPrefixParselet` and `noInfixParselet`
name the two `TypeError`s Python raises on calling the absent (`None`)
slot of the jump table; `invalidNumberLiteral` names the `ValueError` of
`int()` on a non-numeric lexeme; `outOfFuel` is an artifact of the fuel
bound and is never produced when the entry point's fuel is used. -/
inductive ParseError where
  | noPrefixParselet
  | noInfixParselet
  | invalidNumberLiteral
  | outOfFuel
deriving DecidableEq, Repr

/-- The parser object's mutable state: the (read-only) token list, the
cursor `self.current`, and the emitted bytecode `self.bytecode`. -/
structure ParserState where
  tokens : List Token
  current : Nat
  bytecode : List Instr
deriving DecidableEq, Repr

/-- Result of a parsing step.  An error carries the state at the moment
the exception is raised (the Python parser object is still observable
then, bytecode emitted so far included). -/
abbrev PResult := Except (ParseError × ParserState) ParserState

/-- The state an operation left behind, whether it returned or raised. -/
def resState : PResult → ParserState
  | .ok s => s
  | .error (_, s) => s

/-- The two prefix-position handlers that can sit in the jump table
(only `number` in this program). -/
inductive PrefixParselet where
  | number
deriving DecidableEq, Repr

/-- The two infix-position handlers that can sit in the jump table
(only `binary` in this program). -/
inductive InfixParselet where
  | binary
deriving DecidableEq, Repr

/-- `self.jumptable`: each kind maps to its optional (prefix, infix)
handler pair. -/
def jumptable : TokenKind → Option PrefixParselet × Option InfixParselet
  | .NUMBER => (some .number, none)
  | .PLUS => (none, some .binary)
  | .MULTIPLY => (none, some .binary)

/-- `int(lexeme)` on the one-character lexeme: defined exactly on digit
characters. -/
def charToInt (c : Char) : Option Int :=
  if c.isDigit then some ((c.toNat : Int) - 48) else none

/-- `PrattParser.number`: no-op when the cursor is out of bounds,
otherwise consume one token and emit its numeric constant. -/
def number (s : ParserState) : PResult :=
  if h : s.current < s.tokens.length then
    let s1 : ParserState := { s with current := s.current + 1 }
    match charToInt (s.tokens.get ⟨s.current, h⟩).lexeme with
    | some v => .ok { s1 with bytecode := s1.bytecode ++ [.const v] }
    | none => .error (.invalidNumberLiteral, s1)
  else .ok s

mutual

/-- `PrattParser.parse_precedence`: return at end of input, dispatch the
prefix handler of the current token, then run the infix loop. -/
def parse_precedence (fuel precedence : Nat) (s : ParserState) : PResult :=
  match fuel with
  | 0 => .error (.outOfFuel, s)
  | f + 1 =>
    if h : s.current < s.tokens.length then
      let start := s.tokens.get ⟨s.current, h⟩
      match (jumptable start.kind).1 with
      | none => .error (.noPrefixParselet, s)
      | some .number =>
        match number s with
        | .error e => .error e
        | .ok s1 => parseLoop f precedence s1
    else .ok s

/-- The `while` loop of `parse_precedence`: as long as the cursor is in
bounds and the current token binds at least as tightly as `precedence`,
dispatch its infix handler. -/
def parseLoop (fuel precedence : Nat) (s : ParserState) : PResult :=
  match fuel with
  | 0 => .error (.outOfFuel, s)
  | f + 1 =>
    if h : s.current < s.tokens.length then
      if precedence ≤ (s.tokens.get ⟨s.current, h⟩).kind.value then
        match (jumptable (s.tokens.get ⟨s.current, h⟩).kind).2 with
        | none => .error (.noInfixParselet, s)
        | some .binary =>
          match binary f s with
          | .error e => .error e
          | .ok s1 => parseLoop f precedence s1
      else .ok s
    else .ok s

/-- `PrattParser.binary`: no-op when out of bounds, otherwise capture and
consume the operator token, parse the right operand at the saturating
successor of the operator's precedence, then emit the operator's
instruction (kinds without a matching `case` emit nothing). -/
def binary (fuel : Nat) (s : ParserState) : PResult :=
  match fuel with
  | 0 => .error (.outOfFuel, s)
  | f + 1 =>
    if h : s.current < s.tokens.length then
      let operator := s.tokens.get ⟨s.current, h⟩
      match parse_precedence f operator.kind.increase.value
          { s with current := s.current + 1 } with
      | .error e => .error e
      | .ok s1 =>
        match operator.kind with
        | .MULTIPLY => .ok { s1 with bytecode := s1.bytecode ++ [.mul] }
        | .PLUS => .ok { s1 with bytecode := s1.bytecode ++ [.add] }
        | .NUMBER => .ok s1
    else .ok s

end

/-- The top-level entry of the source: build the parser on the token list
and call `parse_precedence(0)`.  The fuel `2 * length + 6` dominates the
recursion depth (every recursive call both consumes fuel and, within at
most two calls, a token). -/
def parseProgram (ts : List Token) : PResult :=
  parse_precedence (2 * ts.length + 6) 0 ⟨ts, 0, []⟩

/-- The interpreter's failure: popping an operand off an empty stack
(Python's `IndexError` from `list.pop`). -/
inductive InterpError where
  | stackUnderflow
deriving DecidableEq, Repr

/-- One iteration of the `interpret` loop on one instruction.  The operand
stack is represented top-first (Python pushes and pops at the end of its
list; here at the head). -/
def execInstr (stack : List Int) : Instr → Except InterpError (List Int)
  | .const v => .ok (v :: stack)
  | .add =>
    match stack with
    | b :: a :: rest => .ok ((a + b) :: rest)
    | _ => .error .stackUnderflow
  | .mul =>
    match stack with
    | b :: a :: rest => .ok ((a * b) :: rest)
    | _ => .error .stackUnderflow

/-- The `interpret` loop: run each instruction in order and record the
post-instruction stack snapshot (what `print_stack` shows, bottom-first,
hence the `reverse`). -/
def interpretGo (stack : List Int) :
    List Instr → Except InterpError (List Int × List (List Int))
  | [] => .ok (stack, [])
  | i :: rest =>
    match execInstr stack i with
    | .error e => .error e
    | .ok s1 =>
      match interpretGo s1 rest with
      | .error e => .error e
      | .ok (fin, tr) => .ok (fin, s1.reverse :: tr)

/-- `interpret` from the source: execute the bytecode on an initially
empty stack; the result is the final operand stack (bottom-first, i.e. in
the order of the Python list) together with the trace of post-instruction
stack snapshots. -/
def interpret (bytecode : List Instr) :
    Except InterpError (List Int × List (List Int)) :=
  match interpretGo [] bytecode with
  | .error e => .error e
  | .ok (fin, tr) => .ok (fin.reverse, tr)

/-! ## Reference model of well-formed expressions

The claims quantify over "well-formed infix expressions" over single
digits, `+` and `*`.  The reference model below is written from the
spec's description of that language and of the arithmetic value under
standard precedence and left-associativity; it is independent of the
parser and interpreter above. -/

/-- The two binary operators of the expression grammar. -/
inductive Op where
  | plus
  | mul
deriving DecidableEq, Repr

/-- The source character of an operator. -/
def Op.char : Op → Char
  | .plus => '+'
  | .mul => '*'

/-- The token the scanner produces for an operator character. -/
def opTokenOf : Op → Token
  | .plus => ⟨'+', .PLUS⟩
  | .mul => ⟨'*', .MULTIPLY⟩

/-- The token the scanner produces for a digit character. -/
def digitTokenOf (c : Char) : Token := ⟨c, .NUMBER⟩

/-- Flatten an operator/digit pair list into the character sequence
`op₁ d₁ op₂ d₂ …`. -/
def flatChars : List (Op × Char) → List Char
  | [] => []
  | (o, c) :: ps => o.char :: c :: flatChars ps

/-- Flatten an operator/digit pair list into the corresponding token
sequence. -/
def flatTokens : List (Op × Char) → List Token
  | [] => []
  | (o, c) :: ps => opTokenOf o :: digitTokenOf c :: flatTokens ps

/-- The input with its whitespace dropped (the scanner skips
whitespace). -/
def stripWs (cs : List Char) : List Char :=
  cs.filter (fun c => !c.isWhitespace)

/-- A whitespace-free character sequence forms a well-formed infix
expression when digits and operators alternate, starting and ending with
a digit. -/
def wfExpr : List Char → Bool
  | [] => false
  | [c] => c.isDigit
  | c :: o :: rest => c.isDigit && (o == '+' || o == '*') && wfExpr rest

/-- Numeric value of a digit character. -/
def digitVal (c : Char) : Int := (c.toNat : Int) - 48

/-- The token the scanner produces for one legal non-whitespace
character. -/
def charTokenOf (c : Char) : Token :=
  if c.isDigit then ⟨c, .NUMBER⟩
  else if c = '+' then ⟨c, .PLUS⟩
  else ⟨c, .MULTIPLY⟩

/-- Reference evaluator on the whitespace-free character sequence,
scanned left to right: `acc` is the sum of the completed additive terms
and `cur` the product being accumulated for the current term, so `*`
binds tighter than `+` and equal-precedence chains group to the left. -/
def exprValGo (acc cur : Int) : List Char → Int
  | [] => acc + cur
  | [_] => acc + cur
  | o :: c :: rest =>
    if o = '+' then exprValGo (acc + cur) (digitVal c) rest
    else exprValGo acc (cur * digitVal c) rest

/-- The arithmetic value of a well-formed expression under standard
precedence (`*` before `+`) and left-associativity. -/
def exprValChars : List Char → Int
  | [] => 0
  | c :: rest => exprValGo 0 (digitVal c) rest

/-- The pair-list form of the reference evaluator. -/
def exprValPairs (acc cur : Int) : List (Op × Char) → Int
  | [] => acc + cur
  | (.plus, c) :: r => exprValPairs (acc + cur) (digitVal c) r
  | (.mul, c) :: r => exprValPairs acc (cur * digitVal c) r

/-- The value the emitted bytecode computes on top of a stack already
holding `v`: multiply through a leading `*`-chain, then fall into the
general evaluator at the first `+`. -/
def valTop (v : Int) : List (Op × Char) → Int
  | [] => v
  | (.mul, c) :: r => valTop (v * digitVal c) r
  | (.plus, c) :: r => exprValPairs v (digitVal c) r

/-- Number of leading `*`-operator pairs. -/
def mulPrefixCount : List (Op × Char) → Nat
  | (.mul, _) :: r => mulPrefixCount r + 1
  | _ => 0

/-- The bytecode the parser emits for the leading `*`-chain: a
push-constant and a multiply per pair. -/
def mulPrefixCode : List (Op × Char) → List Instr
  | (.mul, c) :: r => Instr.const (digitVal c) :: Instr.mul :: mulPrefixCode r
  | _ => []

/-- What remains of the pair list past the leading `*`-chain. -/
def mulPrefixRest : List (Op × Char) → List (Op × Char)
  | (.mul, _) :: r => mulPrefixRest r
  | ps => ps

/-- The bytecode emitted after an operand and a pending `+`: finish the
current `*`-chain, emit the pending `Add`, continue. -/
def codePlus : List (Op × Char) → List Instr
  | [] => [Instr.add]
  | (.mul, c) :: rest => Instr.const (digitVal c) :: Instr.mul :: codePlus rest
  | (.plus, c) :: rest => Instr.add :: Instr.const (digitVal c) :: codePlus rest

/-- The bytecode the parser emits for the operator/digit pair list that
follows the leading operand. -/
def code0 : List (Op × Char) → List Instr
  | [] => []
  | (.mul, c) :: rest => Instr.const (digitVal c) :: Instr.mul :: code0 rest
  | (.plus, c) :: rest => Instr.const (digitVal c) :: codePlus rest

/-- The cursor discipline of one parser operation started in state `s`:
whether it returns or raises, the token list is untouched, the cursor has
not moved backwards, and the cursor stays within the token-list bounds. -/
def CursorInv (s : ParserState) (r : PResult) : Prop :=
  (resState r).tokens = s.tokens ∧
  s.current ≤ (resState r).current ∧
  (resState r).current ≤ s.tokens.length

/-! ## Helper lemmas -/

/-- From a cons-shaped `drop`, extract the bound, the element at the
cursor and the tail `drop`. -/
theorem drop_head_facts {l : List Token} {n : Nat} {t : Token}
    {rest : List Token} (h : l.drop n = t :: rest) :
    ∃ hlt : n < l.length, l.get ⟨n, hlt⟩ = t ∧ l.drop (n + 1) = rest := by
  have hlt : n < l.length := by
    by_contra hge
    rw [List.drop_eq_nil_of_le (by omega)] at h
    cases h
  have hd := List.drop_eq_getElem_cons hlt
  rw [h] at hd
  injection hd with h1 h2
  exact ⟨hlt, by rw [List.get_eq_getElem]; exact h1.symm, h2.symm⟩

/-- An empty `drop` puts the index at or past the end. -/
theorem drop_nil_len {l : List Token} {n : Nat} (h : l.drop n = []) :
    l.length ≤ n := by
  by_contra hlt
  rw [List.drop_eq_getElem_cons (by omega)] at h
  cases h

/-- The token form of a pair list is twice as long as the pair list. -/
theorem flatTokens_length : ∀ ps : List (Op × Char),
    (flatTokens ps).length = 2 * ps.length := by
  intro ps
  induction ps with
  | nil => rfl
  | cons p r ih =>
    obtain ⟨o, c⟩ := p
    simp [flatTokens, ih]
    omega

/-- The leading `*`-chain and what follows it partition the pair list. -/
theorem mulPrefix_length : ∀ ps : List (Op × Char),
    mulPrefixCount ps + (mulPrefixRest ps).length = ps.length := by
  intro ps
  induction ps with
  | nil => rfl
  | cons p r ih =>
    obtain ⟨o, c⟩ := p
    cases o
    · simp [mulPrefixCount, mulPrefixRest]
    · simp only [mulPrefixCount, mulPrefixRest, List.length_cons]
      omega

/-- Skipping the leading `*`-chain never lengthens the list. -/
theorem mulPrefixRest_length_le (ps : List (Op × Char)) :
    (mulPrefixRest ps).length ≤ ps.length := by
  have := mulPrefix_length ps
  omega

/-- Skipping the leading `*`-chain keeps only elements of the list. -/
theorem mulPrefixRest_subset : ∀ (ps : List (Op × Char)) (q : Op × Char),
    q ∈ mulPrefixRest ps → q ∈ ps := by
  intro ps
  induction ps with
  | nil => intro q hq; exact hq
  | cons p r ih =>
    obtain ⟨o, c⟩ := p
    cases o
    · intro q hq
      simpa [mulPrefixRest] using hq
    · intro q hq
      exact List.mem_cons_of_mem _ (ih q (by simpa [mulPrefixRest] using hq))

/-- `codePlus` is the leading `*`-chain code, then the pending `Add`,
then the code for what follows. -/
theorem codePlus_split : ∀ ps : List (Op × Char),
    codePlus ps = mulPrefixCode ps ++ Instr.add :: code0 (mulPrefixRest ps) := by
  intro ps
  induction ps with
  | nil => rfl
  | cons p r ih =>
    obtain ⟨o, c⟩ := p
    cases o
    · simp [codePlus, mulPrefixCode, mulPrefixRest, code0]
    · simp [codePlus, mulPrefixCode, mulPrefixRest, ih]

/-- Executing `codePlus` with the pending addend `acc` below the current
term `cur` computes the reference value. -/
theorem interpretGo_codePlus : ∀ (ps : List (Op × Char)) (acc cur : Int)
    (st : List Int), ∃ tr,
    interpretGo (cur :: acc :: st) (codePlus ps) =
      .ok (exprValPairs acc cur ps :: st, tr) := by
  intro ps
  induction ps with
  | nil =>
    intro acc cur st
    exact ⟨[((acc + cur) :: st).reverse], rfl⟩
  | cons p r ih =>
    obtain ⟨o, c⟩ := p
    cases o
    · intro acc cur st
      obtain ⟨tr, htr⟩ := ih (acc + cur) (digitVal c) st
      refine ⟨((acc + cur) :: st).reverse ::
        (digitVal c :: (acc + cur) :: st).reverse :: tr, ?_⟩
      simp [codePlus, interpretGo, execInstr, htr, exprValPairs]
    · intro acc cur st
      obtain ⟨tr, htr⟩ := ih acc (cur * digitVal c) st
      refine ⟨(digitVal c :: cur :: acc :: st).reverse ::
        ((cur * digitVal c) :: acc :: st).reverse :: tr, ?_⟩
      simp [codePlus, interpretGo, execInstr, htr, exprValPairs]

/-- Executing the emitted pair-list code on top of the leading operand
computes the reference value. -/
theorem interpretGo_code0 : ∀ (ps : List (Op × Char)) (v : Int)
    (st : List Int), ∃ tr,
    interpretGo (v :: st) (code0 ps) = .ok (valTop v ps :: st, tr) := by
  intro ps
  induction ps with
  | nil => intro v st; exact ⟨[], rfl⟩
  | cons p r ih =>
    obtain ⟨o, c⟩ := p
    cases o
    · intro v st
      obtain ⟨tr, htr⟩ := interpretGo_codePlus r v (digitVal c) st
      refine ⟨(digitVal c :: v :: st).reverse :: tr, ?_⟩
      simp [code0, interpretGo, execInstr, htr, valTop]
    · intro v st
      obtain ⟨tr, htr⟩ := ih (v * digitVal c) st
      refine ⟨(digitVal c :: v :: st).reverse ::
        ((v * digitVal c) :: st).reverse :: tr, ?_⟩
      simp [code0, interpretGo, execInstr, htr, valTop]

/-- The bytecode value agrees with the reference evaluator started with
an empty sum. -/
theorem valTop_exprValPairs : ∀ (ps : List (Op × Char)) (v : Int),
    valTop v ps = exprValPairs 0 v ps := by
  intro ps
  induction ps with
  | nil => intro v; simp [valTop, exprValPairs]
  | cons p r ih =>
    obtain ⟨o, c⟩ := p
    cases o
    · intro v; simp [valTop, exprValPairs]
    · intro v; simp [valTop, exprValPairs, ih]

/-- The character-level and pair-level reference evaluators agree. -/
theorem exprValGo_flatChars : ∀ (ps : List (Op × Char)) (acc cur : Int),
    exprValGo acc cur (flatChars ps) = exprValPairs acc cur ps := by
  intro ps
  induction ps with
  | nil => intro acc cur; rfl
  | cons p r ih =>
    obtain ⟨o, c⟩ := p
    cases o
    · intro acc cur
      simp [flatChars, exprValGo, exprValPairs, Op.char, ih]
    · intro acc cur
      have hne : (('*' : Char) = '+') = False := by simp
      simp [flatChars, exprValGo, exprValPairs, Op.char, ih, hne]

/-- Executing a sequence of push-constant instructions pushes all the
constants and never fails, whatever the resulting stack size. -/
theorem interpretGo_consts (vs : List Int) : ∀ stack : List Int,
    ∃ tr, interpretGo stack (vs.map Instr.const) = .ok (vs.reverse ++ stack, tr) := by
  induction vs with
  | nil => intro stack; exact ⟨[], rfl⟩
  | cons v vs ih =>
    intro stack
    obtain ⟨tr, htr⟩ := ih (v :: stack)
    refine ⟨(v :: stack).reverse :: tr, ?_⟩
    simp [interpretGo, execInstr, htr]

/-- Chain the cursor discipline across sequenced operations. -/
theorem CursorInv.step {s s' : ParserState} {r : PResult}
    (h1 : CursorInv s' r) (ht : s'.tokens = s.tokens)
    (hc : s.current ≤ s'.current) : CursorInv s r := by
  obtain ⟨a, b, c⟩ := h1
  exact ⟨a.trans ht, hc.trans b, by rw [ht] at c; exact c⟩

/-- `number` obeys the cursor discipline. -/
theorem number_cursorInv (s : ParserState) (h : s.current ≤ s.tokens.length) :
    CursorInv s (number s) := by
  unfold CursorInv number
  split
  · rename_i hlt
    rcases hcv : charToInt (s.tokens.get ⟨s.current, hlt⟩).lexeme with _ | v <;>
      simp [hcv, resState] <;> omega
  · exact ⟨rfl, le_refl _, h⟩

/-- `binary`, the parse loop and `parse_precedence` obey the cursor
discipline, at every fuel level. -/
theorem parse_cursorInv : ∀ fuel prec : Nat, ∀ s : ParserState,
    s.current ≤ s.tokens.length →
    CursorInv s (binary fuel s) ∧ CursorInv s (parseLoop fuel prec s) ∧
    CursorInv s (parse_precedence fuel prec s) := by
  intro fuel
  induction fuel with
  | zero =>
    intro prec s h
    exact ⟨⟨rfl, le_refl _, h⟩, ⟨rfl, le_refl _, h⟩, ⟨rfl, le_refl _, h⟩⟩
  | succ f ih =>
    intro prec s h
    refine ⟨?_, ?_, ?_⟩
    · -- binary (f + 1) s
      unfold binary
      split
      · rename_i hlt
        have hpp := (ih (s.tokens.get ⟨s.current, hlt⟩).kind.increase.value
          { s with current := s.current + 1 } (by simpa using hlt)).2.2
        rcases hm : parse_precedence f
            (s.tokens.get ⟨s.current, hlt⟩).kind.increase.value
            { s with current := s.current + 1 } with e | s1
        · rw [hm] at hpp
          simp only [hm]
          exact hpp.step rfl (Nat.le_succ _)
        · rw [hm] at hpp
          simp only [hm]
          rcases hk : (s.tokens.get ⟨s.current, hlt⟩).kind with _ | _ | _ <;>
            simp only [hk] <;>
            exact @CursorInv.step s { s with current := s.current + 1 } _
              (by simpa [CursorInv, resState] using hpp) rfl (Nat.le_succ _)
      · exact ⟨rfl, le_refl _, h⟩
    · -- parseLoop (f + 1) prec s
      unfold parseLoop
      split
      · rename_i hlt
        split
        · rcases hjt : (jumptable (s.tokens.get ⟨s.current, hlt⟩).kind).2
              with _ | p
          · simp only [hjt]
            exact ⟨rfl, le_refl _, h⟩
          · cases p
            have hb := (ih prec s h).1
            simp only [hjt]
            rcases hm : binary f s with e | s1
            · rw [hm] at hb
              simp only [hm]
              exact hb
            · rw [hm] at hb
              simp only [CursorInv, resState] at hb
              simp only [hm]
              have h1 : s1.current ≤ s1.tokens.length := by
                rw [hb.1]; exact hb.2.2
              exact (ih prec s1 h1).2.1.step hb.1 hb.2.1
        · exact ⟨rfl, le_refl _, h⟩
      · exact ⟨rfl, le_refl _, h⟩
    · -- parse_precedence (f + 1) prec s
      unfold parse_precedence
      split
      · rename_i hlt
        rcases hjt : (jumptable (s.tokens.get ⟨s.current, hlt⟩).kind).1
            with _ | p
        · simp only [hjt]
          exact ⟨rfl, le_refl _, h⟩
        · cases p
          have hn := number_cursorInv s h
          simp only [hjt]
          rcases hm : number s with e | s1
          · rw [hm] at hn
            simp only [hm]
            exact hn
          · rw [hm] at hn
            simp only [CursorInv, resState] at hn
            simp only [hm]
            have h1 : s1.current ≤ s1.tokens.length := by
              rw [hn.1]; exact hn.2.2
            exact (ih prec s1 h1).2.1.step hn.1 hn.2.1
      · exact ⟨rfl, le_refl _, h⟩

/-! ## Behaviour of the parser on well-formed input -/

/-- `number` on a digit token: consume it, emit its constant. -/
theorem number_digit_step (s : ParserState) (c : Char) (R : List Token)
    (hc : c.isDigit = true)
    (hdrop : s.tokens.drop s.current = digitTokenOf c :: R) :
    number s =
      .ok ⟨s.tokens, s.current + 1,
           s.bytecode ++ [.const (digitVal c)]⟩ := by
  obtain ⟨hlt, hget, _⟩ := drop_head_facts hdrop
  unfold number
  rw [dif_pos hlt, hget]
  simp [digitTokenOf, charToInt, hc, digitVal]

/-- At minimum precedence `2` the infix loop consumes nothing: both
operators bind strictly looser. -/
theorem parseLoop_ceiling (ps : List (Op × Char)) (f : Nat)
    (s : ParserState)
    (hdrop : s.tokens.drop s.current = flatTokens ps) :
    parseLoop (f + 1) 2 s = .ok s := by
  cases ps with
  | nil =>
    have hge : s.tokens.length ≤ s.current :=
      drop_nil_len (by simpa [flatTokens] using hdrop)
    unfold parseLoop
    rw [dif_neg (by omega)]
  | cons p r =>
    obtain ⟨o, c⟩ := p
    simp only [flatTokens] at hdrop
    obtain ⟨hlt, hget, _⟩ := drop_head_facts hdrop
    have hcond : ¬ 2 ≤ (s.tokens.get ⟨s.current, hlt⟩).kind.value := by
      rw [hget]; cases o <;> decide
    unfold parseLoop
    rw [dif_pos hlt, if_neg hcond]

/-- The infix loop returns at once on an empty remainder. -/
theorem parseLoop_exit_nil (fuel prec : Nat) (s : ParserState)
    (hfuel : 1 ≤ fuel) (hdrop : s.tokens.drop s.current = []) :
    parseLoop fuel prec s = .ok s := by
  obtain ⟨g, rfl⟩ : ∃ g, fuel = g + 1 := ⟨fuel - 1, by omega⟩
  have hge := drop_nil_len hdrop
  unfold parseLoop
  rw [dif_neg (by omega)]

/-- `parse_precedence` at the ceiling precedence `2` parses exactly one
digit operand. -/
theorem pp2_step (fuel : Nat) (c : Char) (ps : List (Op × Char))
    (s : ParserState) (hfuel : 2 ≤ fuel) (hc : c.isDigit = true)
    (hdrop : s.tokens.drop s.current = digitTokenOf c :: flatTokens ps) :
    parse_precedence fuel 2 s =
      .ok ⟨s.tokens, s.current + 1,
           s.bytecode ++ [.const (digitVal c)]⟩ := by
  obtain ⟨g, rfl⟩ : ∃ g, fuel = (g + 1) + 1 := ⟨fuel - 2, by omega⟩
  obtain ⟨hlt, hget, hdrop1⟩ := drop_head_facts hdrop
  have hnum := number_digit_step s c _ hc hdrop
  unfold parse_precedence
  rw [dif_pos hlt, hget]
  simp only [digitTokenOf, jumptable, hnum]
  exact parseLoop_ceiling ps g _ (by simpa using hdrop1)

/-- `binary` at a `*` operator: consume the operator and its digit
operand, emit the constant and the multiply. -/
theorem binary_mul_step (fuel : Nat) (c : Char) (ps : List (Op × Char))
    (s : ParserState) (hfuel : 3 ≤ fuel) (hc : c.isDigit = true)
    (hdrop : s.tokens.drop s.current =
      opTokenOf .mul :: digitTokenOf c :: flatTokens ps) :
    binary fuel s =
      .ok ⟨s.tokens, s.current + 2,
           s.bytecode ++ [.const (digitVal c), .mul]⟩ ∧
    s.tokens.drop (s.current + 2) = flatTokens ps := by
  obtain ⟨g, rfl⟩ : ∃ g, fuel = g + 1 := ⟨fuel - 1, by omega⟩
  obtain ⟨hlt, hget, hdrop1⟩ := drop_head_facts hdrop
  obtain ⟨hlt1, hget1, hdrop2⟩ := drop_head_facts hdrop1
  have hpp := pp2_step g c ps ⟨s.tokens, s.current + 1, s.bytecode⟩
    (by omega) hc (by simpa using hdrop1)
  simp only [] at hpp
  constructor
  · unfold binary
    rw [dif_pos hlt, hget]
    have hinc : TokenKind.MULTIPLY.increase.value = 2 := by decide
    simp only [opTokenOf, hinc, hpp]
    refine congrArg Except.ok ?_
    simp only [ParserState.mk.injEq]
    refine ⟨?_, ?_, ?_⟩ <;> first | trivial | omega | simp
  · simpa using hdrop2

/-- The infix loop at minimum precedence `1` consumes exactly the
leading `*`-chain and emits its code. -/
theorem parseLoop1_spec : ∀ (ps : List (Op × Char)) (fuel : Nat)
    (s : ParserState), 2 * ps.length + 4 ≤ fuel →
    (∀ p ∈ ps, (p.2 : Char).isDigit = true) →
    s.tokens.drop s.current = flatTokens ps →
    parseLoop fuel 1 s =
      .ok ⟨s.tokens, s.current + 2 * mulPrefixCount ps,
           s.bytecode ++ mulPrefixCode ps⟩ ∧
    s.tokens.drop (s.current + 2 * mulPrefixCount ps) =
      flatTokens (mulPrefixRest ps) := by
  intro ps
  induction ps with
  | nil =>
    intro fuel s hfuel hd hdrop
    constructor
    · rw [parseLoop_exit_nil fuel 1 s (by omega)
        (by simpa [flatTokens] using hdrop)]
      simp [mulPrefixCount, mulPrefixCode]
    · simpa [mulPrefixCount, mulPrefixRest] using hdrop
  | cons p rest ih =>
    obtain ⟨o, c⟩ := p
    cases o
    · -- plus: the loop exits, `+` binds looser than 1
      intro fuel s hfuel hd hdrop
      obtain ⟨g, rfl⟩ : ∃ g, fuel = g + 1 := ⟨fuel - 1, by omega⟩
      simp only [flatTokens] at hdrop
      obtain ⟨hlt, hget, _⟩ := drop_head_facts hdrop
      have hcond : ¬ 1 ≤ (s.tokens.get ⟨s.current, hlt⟩).kind.value := by
        rw [hget]; decide
      constructor
      · unfold parseLoop
        rw [dif_pos hlt, if_neg hcond]
        simp [mulPrefixCount, mulPrefixCode]
      · simp only [mulPrefixCount, mulPrefixRest, flatTokens]
        simpa using hdrop
    · -- mul: one binary step, then the loop continues
      intro fuel s hfuel hd hdrop
      obtain ⟨g, rfl⟩ : ∃ g, fuel = g + 1 := ⟨fuel - 1, by omega⟩
      simp only [List.length_cons] at hfuel
      simp only [flatTokens] at hdrop
      obtain ⟨hlt, hget, _⟩ := drop_head_facts hdrop
      have hbin := binary_mul_step g c rest s (by omega)
        (hd (Op.mul, c) (List.mem_cons_self _ _)) hdrop
      have hdrest : ∀ p ∈ rest, (p.2 : Char).isDigit = true :=
        fun q hq => hd q (List.mem_cons_of_mem _ hq)
      have hrec := ih g
        ⟨s.tokens, s.current + 2, s.bytecode ++ [.const (digitVal c), .mul]⟩
        (by omega) hdrest (by simpa using hbin.2)
      have hcond : 1 ≤ (s.tokens.get ⟨s.current, hlt⟩).kind.value := by
        rw [hget]; decide
      have hjt : (jumptable (s.tokens.get ⟨s.current, hlt⟩).kind).2 =
          some .binary := by
        rw [hget]; decide
      constructor
      · unfold parseLoop
        rw [dif_pos hlt, if_pos hcond]
        simp only [hjt, hbin.1, hrec.1]
        refine congrArg Except.ok ?_
        simp only [mulPrefixCount, mulPrefixCode, ParserState.mk.injEq]
        refine ⟨?_, ?_, ?_⟩ <;> first | trivial | omega | simp
      · have h2 := hrec.2
        simp only [mulPrefixCount, mulPrefixRest]
        rw [show s.current + 2 * (mulPrefixCount rest + 1) =
          s.current + 2 + 2 * mulPrefixCount rest from by omega]
        simpa using h2

/-- `parse_precedence` at minimum precedence `1`: one digit operand, then
its `*`-chain. -/
theorem pp1_spec (ps : List (Op × Char)) (fuel : Nat) (c : Char)
    (s : ParserState) (hfuel : 2 * ps.length + 5 ≤ fuel)
    (hc : c.isDigit = true)
    (hd : ∀ p ∈ ps, (p.2 : Char).isDigit = true)
    (hdrop : s.tokens.drop s.current = digitTokenOf c :: flatTokens ps) :
    parse_precedence fuel 1 s =
      .ok ⟨s.tokens, s.current + 1 + 2 * mulPrefixCount ps,
           s.bytecode ++ Instr.const (digitVal c) :: mulPrefixCode ps⟩ ∧
    s.tokens.drop (s.current + 1 + 2 * mulPrefixCount ps) =
      flatTokens (mulPrefixRest ps) := by
  obtain ⟨g, rfl⟩ : ∃ g, fuel = g + 1 := ⟨fuel - 1, by omega⟩
  obtain ⟨hlt, hget, hdrop1⟩ := drop_head_facts hdrop
  have hnum := number_digit_step s c _ hc hdrop
  have hrec := parseLoop1_spec ps g
    ⟨s.tokens, s.current + 1, s.bytecode ++ [.const (digitVal c)]⟩
    (by omega) hd (by simpa using hdrop1)
  simp only [] at hrec
  constructor
  · unfold parse_precedence
    rw [dif_pos hlt, hget]
    simp only [digitTokenOf, jumptable, hnum, hrec.1]
    refine congrArg Except.ok ?_
    simp only [ParserState.mk.injEq]
    refine ⟨?_, ?_, ?_⟩ <;> first | trivial | omega | simp
  · exact hrec.2

/-- `binary` at a `+` operator: consume the operator, parse its operand
and that operand's `*`-chain, then emit the `Add`. -/
theorem binary_plus_step (rest : List (Op × Char)) (fuel : Nat)
    (c : Char) (s : ParserState) (hfuel : 2 * rest.length + 6 ≤ fuel)
    (hc : c.isDigit = true)
    (hd : ∀ p ∈ rest, (p.2 : Char).isDigit = true)
    (hdrop : s.tokens.drop s.current =
      opTokenOf .plus :: digitTokenOf c :: flatTokens rest) :
    binary fuel s =
      .ok ⟨s.tokens, s.current + 2 + 2 * mulPrefixCount rest,
           s.bytecode ++ Instr.const (digitVal c) ::
             (mulPrefixCode rest ++ [Instr.add])⟩ ∧
    s.tokens.drop (s.current + 2 + 2 * mulPrefixCount rest) =
      flatTokens (mulPrefixRest rest) := by
  obtain ⟨g, rfl⟩ : ∃ g, fuel = g + 1 := ⟨fuel - 1, by omega⟩
  obtain ⟨hlt, hget, hdrop1⟩ := drop_head_facts hdrop
  have hpp := pp1_spec rest g c ⟨s.tokens, s.current + 1, s.bytecode⟩
    (by omega) hc hd (by simpa using hdrop1)
  simp only [] at hpp
  constructor
  · unfold binary
    rw [dif_pos hlt, hget]
    have hinc : TokenKind.PLUS.increase.value = 1 := by decide
    simp only [opTokenOf, hinc, hpp.1]
    refine congrArg Except.ok ?_
    simp only [ParserState.mk.injEq]
    refine ⟨?_, ?_, ?_⟩ <;> first | trivial | omega | simp
  · have h2 := hpp.2
    rw [show s.current + 2 + 2 * mulPrefixCount rest =
      s.current + 1 + 1 + 2 * mulPrefixCount rest from by omega]
    simpa using h2

/-- The infix loop at minimum precedence `0` consumes the whole pair
list and emits its code. -/
theorem parseLoop0_spec : ∀ (n : Nat) (ps : List (Op × Char)),
    ps.length ≤ n → ∀ (fuel : Nat) (s : ParserState),
    2 * ps.length + 7 ≤ fuel →
    (∀ p ∈ ps, (p.2 : Char).isDigit = true) →
    s.tokens.drop s.current = flatTokens ps →
    parseLoop fuel 0 s =
      .ok ⟨s.tokens, s.current + 2 * ps.length,
           s.bytecode ++ code0 ps⟩ := by
  intro n
  induction n with
  | zero =>
    intro ps hlen fuel s hfuel hd hdrop
    have hnil : ps = [] := List.eq_nil_of_length_eq_zero (by omega)
    subst hnil
    rw [parseLoop_exit_nil fuel 0 s (by omega)
      (by simpa [flatTokens] using hdrop)]
    simp [code0]
  | succ n ih =>
    intro ps hlen fuel s hfuel hd hdrop
    cases ps with
    | nil =>
      rw [parseLoop_exit_nil fuel 0 s (by omega)
        (by simpa [flatTokens] using hdrop)]
      simp [code0]
    | cons p rest =>
      obtain ⟨o, c⟩ := p
      obtain ⟨g, rfl⟩ : ∃ g, fuel = g + 1 := ⟨fuel - 1, by omega⟩
      simp only [List.length_cons] at hlen hfuel
      have hdrest : ∀ q ∈ rest, (q.2 : Char).isDigit = true :=
        fun q hq => hd q (List.mem_cons_of_mem _ hq)
      cases o
      · -- plus step, then continue past the consumed `*`-chain
        simp only [flatTokens] at hdrop
        obtain ⟨hlt, hget, _⟩ := drop_head_facts hdrop
        have hbin := binary_plus_step rest g c s (by omega)
          (hd (Op.plus, c) (List.mem_cons_self _ _)) hdrest hdrop
        have hrle := mulPrefixRest_length_le rest
        have hrec := ih (mulPrefixRest rest) (by omega) g
          ⟨s.tokens, s.current + 2 + 2 * mulPrefixCount rest,
           s.bytecode ++ Instr.const (digitVal c) ::
             (mulPrefixCode rest ++ [Instr.add])⟩
          (by omega)
          (fun q hq => hdrest q (mulPrefixRest_subset rest q hq))
          (by simpa using hbin.2)
        simp only [] at hrec
        have hcond : 0 ≤ (s.tokens.get ⟨s.current, hlt⟩).kind.value :=
          Nat.zero_le _
        have hjt : (jumptable (s.tokens.get ⟨s.current, hlt⟩).kind).2 =
            some .binary := by
          rw [hget]; decide
        unfold parseLoop
        rw [dif_pos hlt, if_pos hcond]
        simp only [hjt, hbin.1, hrec]
        refine congrArg Except.ok ?_
        simp only [ParserState.mk.injEq]
        have hpart := mulPrefix_length rest
        refine ⟨by trivial, by (simp only [List.length_cons]; omega), ?_⟩
        simp [code0, codePlus_split, List.append_assoc]
      · -- mul step, then continue
        simp only [flatTokens] at hdrop
        obtain ⟨hlt, hget, _⟩ := drop_head_facts hdrop
        have hbin := binary_mul_step g c rest s (by omega)
          (hd (Op.mul, c) (List.mem_cons_self _ _)) hdrop
        have hrec := ih rest (by omega) g
          ⟨s.tokens, s.current + 2,
           s.bytecode ++ [.const (digitVal c), .mul]⟩
          (by omega) hdrest (by simpa using hbin.2)
        simp only [] at hrec
        have hcond : 0 ≤ (s.tokens.get ⟨s.current, hlt⟩).kind.value :=
          Nat.zero_le _
        have hjt : (jumptable (s.tokens.get ⟨s.current, hlt⟩).kind).2 =
            some .binary := by
          rw [hget]; decide
        unfold parseLoop
        rw [dif_pos hlt, if_pos hcond]
        simp only [hjt, hbin.1, hrec]
        refine congrArg Except.ok ?_
        simp only [ParserState.mk.injEq]
        refine ⟨by trivial, by (simp only [List.length_cons]; omega),
          by simp [code0]⟩

/-- `parse_precedence` at the entry precedence `0` on a well-formed
remainder consumes everything and emits the leading constant followed by
the pair-list code. -/
theorem pp0_spec (ps : List (Op × Char)) (fuel : Nat) (c : Char)
    (s : ParserState) (hfuel : 2 * ps.length + 8 ≤ fuel)
    (hc : c.isDigit = true)
    (hd : ∀ p ∈ ps, (p.2 : Char).isDigit = true)
    (hdrop : s.tokens.drop s.current = digitTokenOf c :: flatTokens ps) :
    parse_precedence fuel 0 s =
      .ok ⟨s.tokens, s.current + 1 + 2 * ps.length,
           s.bytecode ++ Instr.const (digitVal c) :: code0 ps⟩ := by
  obtain ⟨g, rfl⟩ : ∃ g, fuel = g + 1 := ⟨fuel - 1, by omega⟩
  obtain ⟨hlt, hget, hdrop1⟩ := drop_head_facts hdrop
  have hnum := number_digit_step s c _ hc hdrop
  have hrec := parseLoop0_spec ps.length ps (le_refl _) g
    ⟨s.tokens, s.current + 1, s.bytecode ++ [.const (digitVal c)]⟩
    (by omega) hd (by simpa using hdrop1)
  simp only [] at hrec
  unfold parse_precedence
  rw [dif_pos hlt, hget]
  simp only [digitTokenOf, jumptable, hnum, hrec]
  refine congrArg Except.ok ?_
  simp only [ParserState.mk.injEq]
  refine ⟨?_, ?_, ?_⟩ <;> first | trivial | omega | simp

/-- The whole parse of a well-formed token sequence: every token is
consumed and the emitted program is the leading constant followed by the
pair-list code. -/
theorem parseProgram_wf (c : Char) (ps : List (Op × Char))
    (hc : c.isDigit = true)
    (hps : ∀ p ∈ ps, (p.2 : Char).isDigit = true) :
    parseProgram (digitTokenOf c :: flatTokens ps) =
      .ok ⟨digitTokenOf c :: flatTokens ps, 1 + 2 * ps.length,
           Instr.const (digitVal c) :: code0 ps⟩ := by
  have h := pp0_spec ps
    (2 * (digitTokenOf c :: flatTokens ps).length + 6) c
    ⟨digitTokenOf c :: flatTokens ps, 0, []⟩
    (by simp only [List.length_cons, flatTokens_length]; omega)
    hc hps (by simp)
  simpa [parseProgram] using h

/-! ## Scanner lemmas and well-formed inputs -/

/-- On legal characters the scanner is: drop whitespace, then classify
each remaining character. -/
theorem simple_scan_legal : ∀ cs : List Char,
    (∀ x ∈ cs, x.isWhitespace = true ∨ x.isDigit = true ∨
      x = '+' ∨ x = '*') →
    simple_scan cs = .ok ((stripWs cs).map charTokenOf) := by
  intro cs
  induction cs with
  | nil => intro _; rfl
  | cons c rest ih =>
    intro h
    have hr := ih (fun x hx => h x (List.mem_cons_of_mem c hx))
    have hc := h c (List.mem_cons_self c rest)
    cases hws : c.isWhitespace with
    | true =>
      simp [simple_scan, hws, stripWs, List.filter_cons, hr]
    | false =>
      rcases hc with hc | hc | hc | hc
      · rw [hws] at hc; cases hc
      · simp [simple_scan, hws, hc, stripWs, List.filter_cons, hr,
          charTokenOf]
      · subst hc
        have h2 : ('+' : Char).isDigit = false := by decide
        simp [simple_scan, hws, h2, stripWs, List.filter_cons, hr,
          charTokenOf]
      · subst hc
        have h2 : ('*' : Char).isDigit = false := by decide
        have h3 : ¬ (('*' : Char) = '+') := by decide
        simp [simple_scan, hws, h2, h3, stripWs, List.filter_cons, hr,
          charTokenOf]

/-- Non-whitespace members of the input survive the whitespace strip. -/
theorem mem_stripWs {cs : List Char} {c : Char} (hc : c ∈ cs)
    (hws : c.isWhitespace = false) : c ∈ stripWs cs := by
  simp [stripWs, List.mem_filter, hc, hws]

/-- Every character of a flattened pair list is a digit or an
operator. -/
theorem flatChars_mem_legal : ∀ ps : List (Op × Char),
    (∀ p ∈ ps, (p.2 : Char).isDigit = true) →
    ∀ x ∈ flatChars ps, x.isDigit = true ∨ x = '+' ∨ x = '*' := by
  intro ps
  induction ps with
  | nil => intro _ x hx; cases hx
  | cons p r ih =>
    obtain ⟨o, c⟩ := p
    intro hd x hx
    simp only [flatChars, List.mem_cons] at hx
    rcases hx with rfl | rfl | hx
    · cases o
      · right; left; rfl
      · right; right; rfl
    · left; exact hd (o, x) (List.mem_cons_self _ _)
    · exact ih (fun q hq => hd q (List.mem_cons_of_mem _ hq)) x hx

/-- Mapping the scanner's classification over a flattened pair list
yields the flattened token list. -/
theorem map_charTokenOf_flatChars : ∀ ps : List (Op × Char),
    (∀ p ∈ ps, (p.2 : Char).isDigit = true) →
    (flatChars ps).map charTokenOf = flatTokens ps := by
  intro ps
  induction ps with
  | nil => intro _; rfl
  | cons p r ih =>
    obtain ⟨o, c⟩ := p
    intro hd
    have hdc : c.isDigit = true := hd (o, c) (List.mem_cons_self _ _)
    have hrest := ih (fun q hq => hd q (List.mem_cons_of_mem _ hq))
    have hplus : charTokenOf '+' = ⟨'+', .PLUS⟩ := by decide
    have hstar : charTokenOf '*' = ⟨'*', .MULTIPLY⟩ := by decide
    cases o <;>
      simp [flatChars, flatTokens, Op.char, opTokenOf, digitTokenOf,
        charTokenOf, hdc, hrest, hplus, hstar]

/-- A well-formed whitespace-free character sequence decomposes as a
digit followed by a flattened operator/digit pair list. -/
theorem wfExpr_decomp : ∀ l : List Char, wfExpr l = true →
    ∃ c ps, l = c :: flatChars ps ∧ c.isDigit = true ∧
      ∀ p ∈ ps, (p.2 : Char).isDigit = true
  | [] => by intro h; simp [wfExpr] at h
  | [c] => by
    intro h
    refine ⟨c, [], rfl, ?_, ?_⟩
    · simpa [wfExpr] using h
    · intro p hp; cases hp
  | c :: o :: rest => by
    intro h
    simp only [wfExpr, Bool.and_eq_true, Bool.or_eq_true,
      beq_iff_eq] at h
    obtain ⟨⟨hc, ho⟩, hrest⟩ := h
    obtain ⟨c1, ps1, heq, hc1, hps1⟩ := wfExpr_decomp rest hrest
    rcases ho with ho | ho
    · refine ⟨c, (Op.plus, c1) :: ps1, ?_, hc, ?_⟩
      · simp [flatChars, Op.char, ho, heq]
      · intro p hp
        rcases List.mem_cons.mp hp with rfl | hp
        · exact hc1
        · exact hps1 p hp
    · refine ⟨c, (Op.mul, c1) :: ps1, ?_, hc, ?_⟩
      · simp [flatChars, Op.char, ho, heq]
      · intro p hp
        rcases List.mem_cons.mp hp with rfl | hp
        · exact hc1
        · exact hps1 p hp

/-! ## Claims -/

/-- C1: for every input string over digits, `+`, `*` and whitespace that
forms a well-formed infix expression, scanning, then `parse_precedence(0)`
from the initial parser state, then executing the emitted bytecode all
succeed, and the final operand stack holds exactly one value: the
arithmetic value of the expression under standard precedence (`*` before
`+`) and left-associativity. -/
theorem wf_pipeline_correct (cs : List Char)
    (hwf : wfExpr (stripWs cs) = true) :
    ∃ ts s tr,
      simple_scan cs = .ok ts ∧
      parseProgram ts = .ok s ∧
      interpret s.bytecode = .ok ([exprValChars (stripWs cs)], tr) := by
  obtain ⟨c, ps, hdecomp, hc, hps⟩ := wfExpr_decomp (stripWs cs) hwf
  have hlegal : ∀ x ∈ cs, x.isWhitespace = true ∨ x.isDigit = true ∨
      x = '+' ∨ x = '*' := by
    intro x hx
    cases hws : x.isWhitespace with
    | true => left; rfl
    | false =>
      right
      have hmem : x ∈ stripWs cs := mem_stripWs hx hws
      rw [hdecomp] at hmem
      rcases List.mem_cons.mp hmem with rfl | hmem
      · left; exact hc
      · exact flatChars_mem_legal ps hps x hmem
  have hscan := simple_scan_legal cs hlegal
  rw [hdecomp] at hscan
  have hparse := parseProgram_wf c ps hc hps
  obtain ⟨tr0, hexec⟩ := interpretGo_code0 ps (digitVal c) []
  have hval : exprValChars (stripWs cs) = valTop (digitVal c) ps := by
    rw [hdecomp]
    rw [valTop_exprValPairs ps (digitVal c)]
    show exprValGo 0 (digitVal c) (flatChars ps) = _
    exact exprValGo_flatChars ps 0 (digitVal c)
  refine ⟨digitTokenOf c :: flatTokens ps,
    ⟨digitTokenOf c :: flatTokens ps, 1 + 2 * ps.length,
      Instr.const (digitVal c) :: code0 ps⟩,
    [digitVal c] :: tr0, ?_, hparse, ?_⟩
  · rw [hscan]
    simp [List.map_cons, map_charTokenOf_flatChars ps hps, charTokenOf,
      digitTokenOf, hc]
  · show interpret (Instr.const (digitVal c) :: code0 ps) = _
    rw [hval]
    simp [interpret, interpretGo, execInstr, hexec]

/-- C1, witness: the concrete well-formed input `"1+2*3"`. -/
theorem wf_pipeline_correct_witness :
    wfExpr (stripWs ("1+2*3".toList)) = true ∧
    ∃ ts s tr,
      simple_scan ("1+2*3".toList) = .ok ts ∧
      parseProgram ts = .ok s ∧
      interpret s.bytecode =
        .ok ([exprValChars (stripWs ("1+2*3".toList))], tr) :=
  ⟨by decide, wf_pipeline_correct ("1+2*3".toList) (by decide)⟩

/-- C8: a token whose kind has no infix handler appearing in infix
position (inside the parse loop, binding at least as tightly as the
current minimum precedence) is the defined fatal error
`noInfixParselet`; and for every token sequence produced by the
expression grammar (digit, then operator/digit pairs) the whole parse
succeeds, so that failure is unreachable on grammar-produced input. -/
theorem no_infix_parselet_defined_unreachable :
    (∀ (fuel prec : Nat) (s : ParserState)
        (h : s.current < s.tokens.length),
        prec ≤ (s.tokens.get ⟨s.current, h⟩).kind.value →
        (jumptable (s.tokens.get ⟨s.current, h⟩).kind).2 = none →
        parseLoop (fuel + 1) prec s = .error (.noInfixParselet, s)) ∧
    (∀ (c : Char) (ps : List (Op × Char)), c.isDigit = true →
        (∀ p ∈ ps, (p.2 : Char).isDigit = true) →
        ∃ s', parseProgram (digitTokenOf c :: flatTokens ps) = .ok s') := by
  constructor
  · intro fuel prec s h hprec hjt
    unfold parseLoop
    rw [dif_pos h, if_pos hprec]
    simp only [hjt]
  · intro c ps hc hps
    exact ⟨_, parseProgram_wf c ps hc hps⟩

/-- C8, witness: the `NUMBER`-in-infix-position error on the token form
of `"1 2"`, and a successful grammar-produced parse. -/
theorem no_infix_parselet_witness :
    parseLoop 1 0 ⟨[⟨'1', .NUMBER⟩, ⟨'2', .NUMBER⟩], 1, [.const 1]⟩ =
      .error (.noInfixParselet,
        ⟨[⟨'1', .NUMBER⟩, ⟨'2', .NUMBER⟩], 1, [.const 1]⟩) ∧
    ∃ s', parseProgram [digitTokenOf '5'] = .ok s' :=
  ⟨no_infix_parselet_defined_unreachable.1 0 0
      ⟨[⟨'1', .NUMBER⟩, ⟨'2', .NUMBER⟩], 1, [.const 1]⟩
      (by decide) (by decide) (by decide),
    no_infix_parselet_defined_unreachable.2 '5' [] (by decide)
      (by decide)⟩

/-- C2: on input `"1 + 2 * 3 + 4"` the scanner yields the seven expected
tokens, the parser consumes them all and emits exactly
`CONST 1, CONST 2, CONST 3, MUL, ADD, CONST 4, ADD`, and executing that
bytecode passes through the stack states
`[1], [1,2], [1,2,3], [1,6], [7], [7,4], [11]`, ending with the single
value `11`. -/
theorem worked_example_pipeline :
    simple_scan ("1 + 2 * 3 + 4".toList) =
      .ok [⟨'1', .NUMBER⟩, ⟨'+', .PLUS⟩, ⟨'2', .NUMBER⟩, ⟨'*', .MULTIPLY⟩,
           ⟨'3', .NUMBER⟩, ⟨'+', .PLUS⟩, ⟨'4', .NUMBER⟩] ∧
    parseProgram [⟨'1', .NUMBER⟩, ⟨'+', .PLUS⟩, ⟨'2', .NUMBER⟩,
        ⟨'*', .MULTIPLY⟩, ⟨'3', .NUMBER⟩, ⟨'+', .PLUS⟩, ⟨'4', .NUMBER⟩] =
      .ok ⟨[⟨'1', .NUMBER⟩, ⟨'+', .PLUS⟩, ⟨'2', .NUMBER⟩, ⟨'*', .MULTIPLY⟩,
            ⟨'3', .NUMBER⟩, ⟨'+', .PLUS⟩, ⟨'4', .NUMBER⟩], 7,
           [.const 1, .const 2, .const 3, .mul, .add, .const 4, .add]⟩ ∧
    interpret [.const 1, .const 2, .const 3, .mul, .add, .const 4, .add] =
      .ok ([11], [[1], [1, 2], [1, 2, 3], [1, 6], [7], [7, 4], [11]]) := by
  refine ⟨by decide, ?_, by decide⟩
  have h := parseProgram_wf '1'
    [(Op.plus, '2'), (Op.mul, '3'), (Op.plus, '4')] (by decide) (by decide)
  have e1 : digitTokenOf '1' ::
      flatTokens [(Op.plus, '2'), (Op.mul, '3'), (Op.plus, '4')] =
      [⟨'1', .NUMBER⟩, ⟨'+', .PLUS⟩, ⟨'2', .NUMBER⟩, ⟨'*', .MULTIPLY⟩,
       ⟨'3', .NUMBER⟩, ⟨'+', .PLUS⟩, ⟨'4', .NUMBER⟩] := by decide
  rw [e1] at h
  exact h.trans (by decide)

/-- C4: `increase` is the saturating successor on the precedence order
`PLUS < MULTIPLY < NUMBER`: it sends `PLUS` to `MULTIPLY` and `MULTIPLY`
to `NUMBER`, fixes `NUMBER`, and never exceeds `NUMBER`. -/
theorem increase_saturating_order :
    TokenKind.increase .PLUS = .MULTIPLY ∧
    TokenKind.increase .MULTIPLY = .NUMBER ∧
    TokenKind.increase .NUMBER = .NUMBER ∧
    TokenKind.PLUS.value < TokenKind.MULTIPLY.value ∧
    TokenKind.MULTIPLY.value < TokenKind.NUMBER.value ∧
    ∀ k : TokenKind, (TokenKind.increase k).value ≤ TokenKind.NUMBER.value :=
  ⟨by decide, by decide, by decide, by decide, by decide,
    fun k => by cases k <;> decide⟩

/-- C5, counterexample: a program whose execution ends with two values on
the stack is *not* rejected — `interpret` returns normally and raises no
error at all, so no `MalformedProgramResult` failure exists in the code. -/
theorem interpret_no_malformed_check_cex :
    interpret [Instr.const 1, Instr.const 2] = .ok ([1, 2], [[1], [1, 2]]) ∧
    ∀ e : InterpError, interpret [Instr.const 1, Instr.const 2] ≠ .error e :=
  ⟨by decide, fun e => by cases e; decide⟩

/-- C5, amended: after the last instruction the interpreter simply
terminates with whatever operand stack remains; the final stack size is
never checked, so a final stack of any size (zero, one or many values) is
returned as-is with no error. -/
theorem interpret_returns_final_stack_unchecked (vs : List Int) :
    ∃ tr, interpret (vs.map Instr.const) = .ok (vs, tr) := by
  obtain ⟨tr, htr⟩ := interpretGo_consts vs []
  exact ⟨tr, by simp [interpret, htr]⟩

/-- C6: an arithmetic instruction pops the top of the stack as `b` and
the next value as `a` and pushes `a + b` (for `Add`) or `a * b` (for
`Multiply`); with fewer than two operands on the stack either instruction
fails with the stack-underflow error. -/
theorem add_mul_stack_discipline :
    (∀ (a b : Int) (rest : List Int),
        execInstr (b :: a :: rest) .add = .ok ((a + b) :: rest) ∧
        execInstr (b :: a :: rest) .mul = .ok ((a * b) :: rest)) ∧
    (∀ stack : List Int, stack.length < 2 →
        execInstr stack .add = .error .stackUnderflow ∧
        execInstr stack .mul = .error .stackUnderflow) := by
  constructor
  · intro a b rest; exact ⟨rfl, rfl⟩
  · intro stack h
    match stack with
    | [] => exact ⟨rfl, rfl⟩
    | [x] => exact ⟨rfl, rfl⟩
    | x :: y :: r => simp only [List.length_cons] at h; exact absurd h (by omega)

/-- C6, witness: concrete instances of both the success and the underflow
cases. -/
theorem add_mul_stack_discipline_witness :
    (([5] : List Int).length < 2) ∧
    execInstr [5] .add = .error .stackUnderflow ∧
    execInstr ((3 : Int) :: 4 :: []) .add = .ok [4 + 3] :=
  ⟨by decide, (add_mul_stack_discipline.2 [5] (by decide)).1,
    (add_mul_stack_discipline.1 4 3 []).1⟩

/-- C7: when the first token of the scanned input has no prefix handler
in the jump table (as for `PLUS` and `MULTIPLY`), `parse_precedence(0)`
from the initial parser state fails with the no-prefix-parselet error,
and the state at the failure still has an empty bytecode sequence —
nothing was emitted. -/
theorem no_prefix_parselet_fails_unemitted (cs : List Char) (t : Token)
    (ts : List Token) (_hscan : simple_scan cs = .ok (t :: ts))
    (hpk : (jumptable t.kind).1 = none) :
    parseProgram (t :: ts) = .error (.noPrefixParselet, ⟨t :: ts, 0, []⟩) := by
  unfold parseProgram
  obtain ⟨f, hf⟩ : ∃ f, 2 * (t :: ts).length + 6 = f + 1 :=
    ⟨2 * (t :: ts).length + 5, by omega⟩
  rw [hf]
  simp [parse_precedence, hpk]

/-- C7, witness: the input `"+1"`. -/
theorem no_prefix_parselet_fails_unemitted_witness :
    simple_scan ("+1".toList) = .ok [⟨'+', .PLUS⟩, ⟨'1', .NUMBER⟩] ∧
    (jumptable TokenKind.PLUS).1 = none ∧
    parseProgram [⟨'+', .PLUS⟩, ⟨'1', .NUMBER⟩] =
      .error (.noPrefixParselet, ⟨[⟨'+', .PLUS⟩, ⟨'1', .NUMBER⟩], 0, []⟩) :=
  ⟨by decide, by decide,
    no_prefix_parselet_fails_unemitted ("+1".toList) ⟨'+', .PLUS⟩
      [⟨'1', .NUMBER⟩] (by decide) (by decide)⟩

/-- C10: a whitespace-only (or empty) input scans to the empty token
list, `parse_precedence(0)` on no tokens returns at once with no bytecode
emitted, and executing the empty program ends with an empty stack, an
empty trace and no error. -/
theorem whitespace_pipeline (cs : List Char) (h : ∀ c ∈ cs, c.isWhitespace) :
    simple_scan cs = .ok [] ∧
    parseProgram [] = .ok ⟨[], 0, []⟩ ∧
    interpret [] = .ok ([], []) := by
  refine ⟨?_, by decide, by decide⟩
  induction cs with
  | nil => rfl
  | cons c rest ih =>
    have hc : c.isWhitespace = true := h c (List.mem_cons_self c rest)
    have hr : simple_scan rest = .ok [] :=
      ih (fun x hx => h x (List.mem_cons_of_mem c hx))
    simp [simple_scan, hc, hr]

/-- C10, witness: a space-and-newline input. -/
theorem whitespace_pipeline_witness :
    (∀ c ∈ [' ', '\n'], c.isWhitespace) ∧
    simple_scan [' ', '\n'] = .ok [] ∧
    parseProgram [] = .ok ⟨[], 0, []⟩ ∧
    interpret [] = .ok ([], []) :=
  ⟨by decide, whitespace_pipeline [' ', '\n'] (by decide)⟩

/-- C3: on an in-bounds cursor whose token is `PLUS` or `MULTIPLY`,
`binary` recurses into `parse_precedence` with the cursor advanced past
exactly the one operator token and with the *saturating successor* of the
operator's precedence as the minimum (strictly above the operator's own
precedence), and, only once that recursive call returns successfully,
appends exactly one instruction: `Add` for `PLUS`, `Multiply` for
`MULTIPLY`. -/
theorem binary_consumes_and_emits (fuel : Nat) (s : ParserState)
    (h : s.current < s.tokens.length)
    (hk : (s.tokens.get ⟨s.current, h⟩).kind = .PLUS ∨
          (s.tokens.get ⟨s.current, h⟩).kind = .MULTIPLY) :
    (s.tokens.get ⟨s.current, h⟩).kind.increase.value =
      (s.tokens.get ⟨s.current, h⟩).kind.value + 1 ∧
    binary (fuel + 1) s =
      match parse_precedence fuel (s.tokens.get ⟨s.current, h⟩).kind.increase.value
          { s with current := s.current + 1 } with
      | .error e => .error e
      | .ok s1 => .ok { s1 with bytecode := s1.bytecode ++
          [if (s.tokens.get ⟨s.current, h⟩).kind = .PLUS then Instr.add
           else Instr.mul] } := by
  constructor
  · rcases hk with hk | hk <;> rw [hk] <;> decide
  · simp only [binary, dif_pos h]
    rcases hmatch : parse_precedence fuel
        (s.tokens.get ⟨s.current, h⟩).kind.increase.value
        { s with current := s.current + 1 } with e | s1
    · simp [hmatch]
    · simp only [List.get_eq_getElem] at hk
      rcases hk with hk | hk <;> simp [hmatch, hk]

/-- C3, witness: `binary` at the `+` of `1 + 2`. -/
theorem binary_consumes_and_emits_witness :
    binary 6 ⟨[⟨'1', .NUMBER⟩, ⟨'+', .PLUS⟩, ⟨'2', .NUMBER⟩], 1, [.const 1]⟩ =
      .ok ⟨[⟨'1', .NUMBER⟩, ⟨'+', .PLUS⟩, ⟨'2', .NUMBER⟩], 3,
           [.const 1, .const 2, .add]⟩ := by
  have h := binary_consumes_and_emits 5
    ⟨[⟨'1', .NUMBER⟩, ⟨'+', .PLUS⟩, ⟨'2', .NUMBER⟩], 1, [.const 1]⟩
    (by decide) (Or.inl (by decide))
  exact h.2.trans (by decide)

/-- C9: every parser operation — `number`, `binary`, the infix loop and
`parse_precedence` itself, at any fuel and minimum precedence — leaves the
token list untouched and only ever moves the cursor forward, keeping it
between its starting position and the token-list length, whether the
operation returns or raises.  In particular no operation ever rereads a
position below one already consumed (no backtracking). -/
theorem cursor_monotone_bounded (fuel prec : Nat) (s : ParserState)
    (h : s.current ≤ s.tokens.length) :
    CursorInv s (number s) ∧ CursorInv s (binary fuel s) ∧
    CursorInv s (parseLoop fuel prec s) ∧
    CursorInv s (parse_precedence fuel prec s) :=
  ⟨number_cursorInv s h, (parse_cursorInv fuel prec s h).1,
   (parse_cursorInv fuel prec s h).2.1, (parse_cursorInv fuel prec s h).2.2⟩

/-- C9, witness: the cursor discipline on a concrete three-token state. -/
theorem cursor_monotone_bounded_witness :
    (⟨[⟨'1', .NUMBER⟩, ⟨'+', .PLUS⟩, ⟨'2', .NUMBER⟩], 0, []⟩ :
        ParserState).current ≤
      (⟨[⟨'1', .NUMBER⟩, ⟨'+', .PLUS⟩, ⟨'2', .NUMBER⟩], 0, []⟩ :
        ParserState).tokens.length ∧
    (CursorInv ⟨[⟨'1', .NUMBER⟩, ⟨'+', .PLUS⟩, ⟨'2', .NUMBER⟩], 0, []⟩
        (number ⟨[⟨'1', .NUMBER⟩, ⟨'+', .PLUS⟩, ⟨'2', .NUMBER⟩], 0, []⟩) ∧
      CursorInv ⟨[⟨'1', .NUMBER⟩, ⟨'+', .PLUS⟩, ⟨'2', .NUMBER⟩], 0, []⟩
        (binary 9 ⟨[⟨'1', .NUMBER⟩, ⟨'+', .PLUS⟩, ⟨'2', .NUMBER⟩], 0, []⟩) ∧
      CursorInv ⟨[⟨'1', .NUMBER⟩, ⟨'+', .PLUS⟩, ⟨'2', .NUMBER⟩], 0, []⟩
        (parseLoop 9 0 ⟨[⟨'1', .NUMBER⟩, ⟨'+', .PLUS⟩, ⟨'2', .NUMBER⟩], 0, []⟩) ∧
      CursorInv ⟨[⟨'1', .NUMBER⟩, ⟨'+', .PLUS⟩, ⟨'2', .NUMBER⟩], 0, []⟩
        (parse_precedence 9 0
          ⟨[⟨'1', .NUMBER⟩, ⟨'+', .PLUS⟩, ⟨'2', .NUMBER⟩], 0, []⟩)) :=
  ⟨by decide, cursor_monotone_bounded 9 0
    ⟨[⟨'1', .NUMBER⟩, ⟨'+', .PLUS⟩, ⟨'2', .NUMBER⟩], 0, []⟩ (by decide)⟩

end PrattDemo
